import Mathlib

/-!
A shallow embedding of the `SimpleFileBasedBlockArchive` block store
(`src/sfb_archive.rs`, `src/block_archive.rs`, `src/result.rs`) and proofs of
its specified properties.

Filesystem paths are modelled as lists of components, each component a list of
characters; file contents are lists of byte values (naturals below 256).
Asynchronous code is modelled by explicit state passing: single-block
operations act on a map from paths to file contents or their I/O failures, and
the enumeration scan acts on an explicit directory tree.
-/

namespace SFBA

/-- A filesystem path, as a list of components (each a list of characters).
`PathBuf::push` of a single relative component is list append of one
component; all component strings in this development are ASCII, so Rust byte
indexing into them coincides with character indexing. -/
abbrev Path : Type := List (List Char)

/-- Io error kinds as distinguished by the code (`std::io::ErrorKind`): the
code matches on `NotFound`; `UnexpectedEof` arises from `read_exact`-style
reads hitting end of file; all other kinds are opaque. -/
inductive IoErrorKind : Type where
  | notFound : IoErrorKind
  | unexpectedEof : IoErrorKind
  | other : Nat → IoErrorKind
deriving DecidableEq

/-- The library error type (`src/result.rs`). The payload of
`BitcoinSVError` is opaque to this development. -/
inductive Error : Type where
  | BlockNotFound : Error
  | BlockExists : Error
  | NotEnoughData : Error
  | IoError : IoErrorKind → Error
  | BitcoinSVError : Nat → Error
deriving DecidableEq

/-- Lowercase hexadecimal digit for a nibble value, as produced by the hex
encoding of the external `hex`/`bitcoinsv` crates. -/
def hexChar : Nat → Char
  | 0 => '0'
  | 1 => '1'
  | 2 => '2'
  | 3 => '3'
  | 4 => '4'
  | 5 => '5'
  | 6 => '6'
  | 7 => '7'
  | 8 => '8'
  | 9 => '9'
  | 10 => 'a'
  | 11 => 'b'
  | 12 => 'c'
  | 13 => 'd'
  | 14 => 'e'
  | 15 => 'f'
  | _ => '?'

/-- Value of a lowercase hexadecimal digit; `none` for any other character.
Defined as the search for the nibble whose rendering is the character, so it
is by construction the partial inverse of `hexChar`. -/
def hexVal? (c : Char) : Option Nat :=
  (List.range 16).find? (fun n => hexChar n == c)

/-- Two lowercase hex characters of a byte, high nibble first. -/
def byteHex (b : Nat) : List Char :=
  [hexChar (b / 16), hexChar (b % 16)]

/-- A block hash: a 32-byte digest (`bitcoinsv::bitcoin::BlockHash`). -/
abbrev BlockHash : Type := { l : List Nat // l.length = 32 ∧ ∀ b ∈ l, b < 256 }

/-- The lowercase hex rendering of a block hash (`hash.encode_hex()`).
The bitcoinsv codec renders block hashes in reversed byte order (the bitcoin
display convention); the direction of the reversal is immaterial to every
claim, which are all stated relative to this rendering. -/
def encodeHex (h : BlockHash) : List Char :=
  (h.val.reverse.map byteHex).flatten

theorem hexVal?_hexChar {n : Nat} (h : n < 16) : hexVal? (hexChar n) = some n := by
  interval_cases n <;> rfl

theorem hexChar_of_hexVal? {c : Char} {v : Nat} (h : hexVal? c = some v) :
    hexChar v = c ∧ v < 16 := by
  have h1 := List.find?_some h
  have h2 := List.mem_of_find?_eq_some h
  rw [List.mem_range] at h2
  exact ⟨by simpa using h1, h2⟩

theorem hexChar_ne_dot {n : Nat} (h : n < 16) : hexChar n ≠ '.' := by
  interval_cases n <;> decide

theorem length_encodeHex (h : BlockHash) : (encodeHex h).length = 64 := by
  have key : ∀ m : List Nat, ((m.map byteHex).flatten).length = 2 * m.length := by
    intro m
    induction m with
    | nil => simp
    | cons a t ih => simp [byteHex] at ih ⊢; omega
  simp only [encodeHex]
  rw [key, List.length_reverse, h.2.1]

theorem mem_encodeHex {h : BlockHash} {c : Char} (hc : c ∈ encodeHex h) :
    ∃ n, n < 16 ∧ c = hexChar n := by
  simp only [encodeHex] at hc
  rw [List.mem_flatten] at hc
  obtain ⟨s, hs, hcs⟩ := hc
  rw [List.mem_map] at hs
  obtain ⟨b, hb, rfl⟩ := hs
  have hb256 : b < 256 := h.2.2 b (List.mem_reverse.mp hb)
  simp only [byteHex, List.mem_cons, List.mem_singleton] at hcs
  rcases hcs with rfl | rfl | hfalse
  · exact ⟨b / 16, by omega, rfl⟩
  · exact ⟨b % 16, by omega, rfl⟩
  · cases hfalse

theorem dot_not_mem_encodeHex (h : BlockHash) : '.' ∉ encodeHex h := by
  intro hmem
  obtain ⟨n, hn, heq⟩ := mem_encodeHex hmem
  exact hexChar_ne_dot hn heq.symm

/-- Hexadecimal digit values of a character list; `none` if any character is
not a lowercase hex digit. -/
def parseNibbles : List Char → Option (List Nat)
  | [] => some []
  | c :: cs =>
    match hexVal? c, parseNibbles cs with
    | some v, some vs => some (v :: vs)
    | _, _ => none

/-- Bytes from a list of nibble values, high nibble first; `none` on odd
length. -/
def nibblePairs : List Nat → Option (List Nat)
  | [] => some []
  | [_] => none
  | a :: b :: rest =>
    match nibblePairs rest with
    | some bs => some ((16 * a + b) :: bs)
    | none => none

/-- Modelled from the spec: hex decoding of a block hash
(`BlockHash::from_hex` of the external bitcoinsv codec, spec section 6), the
inverse of the lowercase hex rendering: exactly 64 lowercase hex characters,
bytes in reversed (display) order. -/
def parseHash (s : List Char) : Option BlockHash :=
  match parseNibbles s with
  | none => none
  | some ns =>
    match nibblePairs ns with
    | none => none
    | some bs =>
      if hcond : bs.reverse.length = 32 ∧ ∀ b ∈ bs.reverse, b < 256 then
        some ⟨bs.reverse, hcond⟩
      else none

theorem parseNibbles_encode {s : List Char} {ns : List Nat}
    (h : parseNibbles s = some ns) :
    s = ns.map hexChar ∧ (∀ v ∈ ns, v < 16) ∧ s.length = ns.length := by
  induction s generalizing ns with
  | nil =>
    simp only [parseNibbles, Option.some.injEq] at h
    subst h; simp
  | cons c cs ih =>
    simp only [parseNibbles] at h
    cases hv : hexVal? c with
    | none => rw [hv] at h; cases h
    | some v =>
      rw [hv] at h
      cases hrec : parseNibbles cs with
      | none => rw [hrec] at h; cases h
      | some vs =>
        rw [hrec] at h
        simp only [Option.some.injEq] at h
        subst h
        obtain ⟨h1, h2, h3⟩ := ih hrec
        obtain ⟨hc, hvlt⟩ := hexChar_of_hexVal? hv
        refine ⟨by simp [← hc, ← h1], ?_, by simp [h3]⟩
        intro x hx
        rcases List.mem_cons.mp hx with rfl | hx2
        · exact hvlt
        · exact h2 x hx2

theorem nibblePairs_encode : ∀ {ns bs : List Nat}, nibblePairs ns = some bs →
    (∀ v ∈ ns, v < 16) →
    ns.map hexChar = (bs.map byteHex).flatten ∧ ns.length = 2 * bs.length
  | [], bs, h, _ => by
    simp only [nibblePairs, Option.some.injEq] at h
    subst h; simp
  | [v], bs, h, _ => by simp [nibblePairs] at h
  | a :: b :: rest, bs, h, hlt => by
    simp only [nibblePairs] at h
    cases hrec : nibblePairs rest with
    | none => rw [hrec] at h; cases h
    | some bs2 =>
      rw [hrec] at h
      simp only [Option.some.injEq] at h
      subst h
      have ha : a < 16 := hlt a (by simp)
      have hb : b < 16 := hlt b (by simp)
      obtain ⟨ih1, ih2⟩ :=
        nibblePairs_encode hrec (fun v hv => hlt v (by simp [hv]))
      constructor
      · simp only [List.map_cons, List.flatten_cons, byteHex]
        have hdiv : (16 * a + b) / 16 = a := by omega
        have hmod : (16 * a + b) % 16 = b := by omega
        rw [hdiv, hmod, ih1]
        rfl
      · simp only [List.length_cons, List.length_map] at ih2 ⊢
        omega

/-- Parsing inverts the rendering: the stem of a correctly named block file
re-renders to the stem, and is 64 characters long. -/
theorem encodeHex_of_parseHash {s : List Char} {h : BlockHash}
    (hp : parseHash s = some h) : encodeHex h = s ∧ s.length = 64 := by
  unfold parseHash at hp
  cases hns : parseNibbles s with
  | none => rw [hns] at hp; cases hp
  | some ns =>
    simp only [hns] at hp
    cases hbs : nibblePairs ns with
    | none => simp only [hbs] at hp; cases hp
    | some bs =>
      simp only [hbs] at hp
      by_cases hc : bs.reverse.length = 32 ∧ ∀ b ∈ bs.reverse, b < 256
      · rw [dif_pos hc] at hp
        simp only [Option.some.injEq] at hp
        obtain ⟨h1, h2, h3⟩ := parseNibbles_encode hns
        obtain ⟨h4, h5⟩ := nibblePairs_encode hbs h2
        constructor
        · rw [← hp]
          simp only [encodeHex, List.reverse_reverse]
          rw [← h4, ← h1]
        · have hl : bs.length = 32 := by simpa using hc.1
          rw [h3, h5, hl]
      · rw [dif_neg hc] at hp; cases hp

/-- Splits a file name at its last dot: `some (before, after)` when a dot is
present, excluding the dot itself from both parts. -/
def lastDotSplit : List Char → Option (List Char × List Char)
  | [] => none
  | c :: rest =>
    match lastDotSplit rest with
    | some (pre, suf) => some (c :: pre, suf)
    | none => if c = '.' then some ([], rest) else none

/-- Rust `Path::file_stem`: the part of the file name before its last dot; the
whole name when there is no dot, or when the only dot is leading (a hidden
file has no extension). -/
def fileStem (name : List Char) : List Char :=
  match lastDotSplit name with
  | some ([], _) => name
  | some (pre, _) => pre
  | none => name

/-- Rust `Path::extension`: the part of the file name after its last dot, when
the part before that dot is nonempty. -/
def fileExtension (name : List Char) : Option (List Char) :=
  match lastDotSplit name with
  | some ([], _) => none
  | some (_, suf) => some suf
  | none => none

/-- Rust `Path::set_extension` / `Path::with_extension` with a nonempty
extension: replaces the extension of the file name, or appends a dot and the
extension when there is none. -/
def setExtension (name ext : List Char) : List Char :=
  fileStem name ++ '.' :: ext

theorem lastDotSplit_of_no_dot {s : List Char} (h : '.' ∉ s) :
    lastDotSplit s = none := by
  induction s with
  | nil => rfl
  | cons c rest ih =>
    have hc : c ≠ '.' := fun hh => h (by simp [hh])
    have hrest : '.' ∉ rest := fun hh => h (by simp [hh])
    simp only [lastDotSplit, ih hrest, if_neg hc]

theorem setExtension_of_no_dot {s : List Char} (h : '.' ∉ s) (ext : List Char) :
    setExtension s ext = s ++ '.' :: ext := by
  simp only [setExtension, fileStem, lastDotSplit_of_no_dot h]

theorem lastDotSplit_eq {s pre suf : List Char}
    (h : lastDotSplit s = some (pre, suf)) : s = pre ++ '.' :: suf := by
  induction s generalizing pre suf with
  | nil => cases h
  | cons c rest ih =>
    simp only [lastDotSplit] at h
    cases hrec : lastDotSplit rest with
    | some pq =>
      obtain ⟨p, q⟩ := pq
      rw [hrec] at h
      simp only [Option.some.injEq, Prod.mk.injEq] at h
      obtain ⟨h1, h2⟩ := h
      subst h2
      rw [← h1]
      simp [ih hrec]
    | none =>
      rw [hrec] at h
      by_cases hc : c = '.'
      · rw [if_pos hc] at h
        simp only [Option.some.injEq, Prod.mk.injEq] at h
        obtain ⟨h1, h2⟩ := h
        subst h2
        rw [← h1, hc]
        simp
      · rw [if_neg hc] at h; cases h

/-- A file name with an extension is its stem, a dot, and the extension. -/
theorem name_eq_stem_dot_ext {name ext : List Char}
    (h : fileExtension name = some ext) :
    name = fileStem name ++ '.' :: ext := by
  unfold fileExtension at h
  unfold fileStem
  cases hsp : lastDotSplit name with
  | none => rw [hsp] at h; cases h
  | some pq =>
    obtain ⟨pre, suf⟩ := pq
    rw [hsp] at h
    cases pre with
    | nil => simp at h
    | cons p ps =>
      simp only [Option.some.injEq] at h
      subst h
      exact lastDotSplit_eq hsp

/-- The fixed file extension of archive entries. -/
def binExt : List Char := ['b', 'i', 'n']

/-- `SimpleFileBasedBlockArchive::get_path_from_hash`
(`src/sfb_archive.rs:59`): the canonical sharded path of a hash under the
archive root. `s` is the 64-character lowercase hex rendering; the first
directory component is `s` from byte 62 (the last two characters), the second
is bytes 60 to 62 (the 3rd and 4th characters from the end), the file name is
`s` with extension `bin` appended by `set_extension`. -/
def get_path_from_hash (root : Path) (h : BlockHash) : Path :=
  let s : List Char := encodeHex h
  root ++ [s.drop 62, (s.drop 60).take 2, setExtension s binExt]

theorem get_path_from_hash_eq (root : Path) (h : BlockHash) :
    get_path_from_hash root h =
      root ++ [(encodeHex h).drop 62, ((encodeHex h).drop 60).take 2,
        encodeHex h ++ '.' :: binExt] := by
  simp only [get_path_from_hash,
    setExtension_of_no_dot (dot_not_mem_encodeHex h)]

/-- Read-side filesystem state for the single-block operations: what opening
or statting each path yields — the full byte content of the file at the path,
or the io error kind the call fails with (`notFound` when nothing exists at
the path). -/
abbrev FS : Type := Path → Except IoErrorKind (List Nat)

/-- The fixed encoded header length `BlockHeader::SIZE` of the external
bitcoinsv codec: 80 bytes. -/
def headerSize : Nat := 80

/-- Read of exactly `n` bytes at position `pos` (tokio `read_exact` and the
`read_uXX_le` helpers built on it, after `seek(SeekFrom::Start(pos))`): a
zero-length read always succeeds, otherwise the read succeeds only when `n`
bytes are available and fails with `UnexpectedEof` when the file is shorter;
a successful read always returns a full buffer. Seeking beyond the end of the
file succeeds. -/
def readExactAt (d : List Nat) (pos n : Nat) : Except IoErrorKind (List Nat) :=
  if n = 0 then .ok []
  else if pos + n ≤ d.length then .ok ((d.drop pos).take n)
  else .error .unexpectedEof

/-- Little-endian value of a byte list (first byte least significant). -/
def leNat : List Nat → Nat
  | [] => 0
  | b :: rest => b + 256 * leNat rest

/-- Little-endian read of `n` bytes at position `pos`
(tokio `read_u8` / `read_u16_le` / `read_u32_le` / `read_u64_le`). -/
def readLEAt (d : List Nat) (pos n : Nat) : Except IoErrorKind Nat :=
  (readExactAt d pos n).map leNat

/-- Reinterpretation of an unsigned 64-bit value as a signed 64-bit integer
(the Rust cast `as i64`). -/
def toInt64 (v : Nat) : Int :=
  if v < 2 ^ 63 then (v : Int) else (v : Int) - 2 ^ 64

/-- `get_block` (`src/sfb_archive.rs:121`): opens the file at the sharded
path; `NotFound` becomes `BlockNotFound`, any other open failure is wrapped
as an io error. The returned reader is modelled by the bytes it reads. -/
def get_block (fs : FS) (root : Path) (h : BlockHash) :
    Except Error (List Nat) :=
  match fs (get_path_from_hash root h) with
  | .ok d => .ok d
  | .error .notFound => .error .BlockNotFound
  | .error k => .error (.IoError k)

/-- `block_exists` (`src/sfb_archive.rs:147`): stats the file at the sharded
path; `NotFound` becomes `Ok(false)`, success `Ok(true)`, any other failure
is wrapped as an io error. -/
def block_exists (fs : FS) (root : Path) (h : BlockHash) :
    Except Error Bool :=
  match fs (get_path_from_hash root h) with
  | .ok _ => .ok true
  | .error .notFound => .ok false
  | .error k => .error (.IoError k)

/-- `block_size` (`src/sfb_archive.rs:190`): the metadata length of the file
at the sharded path; `NotFound` becomes `BlockNotFound`. -/
def block_size (fs : FS) (root : Path) (h : BlockHash) :
    Except Error Nat :=
  match fs (get_path_from_hash root h) with
  | .ok d => .ok d.length
  | .error .notFound => .error .BlockNotFound
  | .error k => .error (.IoError k)

/-- `store_block` (`src/sfb_archive.rs:159`): checks existence first and
fails with `BlockExists` before any write; otherwise creates the directory
chain and writes the streamed bytes at the canonical path (directory
creation and the file write are modelled as succeeding). Returns the
operation result together with the filesystem after the call. -/
def store_block (fs : FS) (root : Path) (h : BlockHash) (data : List Nat) :
    Except Error Unit × FS :=
  match block_exists fs root h with
  | .error e => (.error e, fs)
  | .ok true => (.error .BlockExists, fs)
  | .ok false =>
    (.ok (), fun p => if p = get_path_from_hash root h then .ok data else fs p)

/-- `block_tx_count` (`src/sfb_archive.rs:202`): opens the file at the
sharded path, seeks to `BlockHeader::SIZE`, reads the compact-size marker
byte, dispatches on `0xff` / `0xfe` / `0xfd`, and casts the decoded unsigned
value to `i64`. Read failures propagate through `?` as io errors. -/
def block_tx_count (fs : FS) (root : Path) (h : BlockHash) :
    Except Error Int :=
  match fs (get_path_from_hash root h) with
  | .error .notFound => .error .BlockNotFound
  | .error k => .error (.IoError k)
  | .ok d =>
    match readLEAt d headerSize 1 with
    | .error k => .error (.IoError k)
    | .ok n0 =>
      if n0 = 255 then
        match readLEAt d (headerSize + 1) 8 with
        | .error k => .error (.IoError k)
        | .ok v => .ok (toInt64 v)
      else if n0 = 254 then
        match readLEAt d (headerSize + 1) 4 with
        | .error k => .error (.IoError k)
        | .ok v => .ok (v : Int)
      else if n0 = 253 then
        match readLEAt d (headerSize + 1) 2 with
        | .error k => .error (.IoError k)
        | .ok v => .ok (v : Int)
      else .ok (n0 : Int)

/-- `block_header` (`src/sfb_archive.rs:224`): opens the file at the sharded
path and reads exactly `BlockHeader::SIZE` bytes with `read_exact` through
`?`; a short file therefore surfaces as the io error of `read_exact`, and the
`t < BlockHeader::SIZE` test guarding `NotEnoughData` compares the returned
full-buffer length and cannot fire. The decoded header is modelled as its 80
raw bytes (`BlockHeader::from_binary` of the external codec, modelled from
the spec as decoding a fixed-length record). -/
def block_header (fs : FS) (root : Path) (h : BlockHash) :
    Except Error (List Nat) :=
  match fs (get_path_from_hash root h) with
  | .error .notFound => .error .BlockNotFound
  | .error k => .error (.IoError k)
  | .ok d =>
    match readExactAt d 0 headerSize with
    | .error k => .error (.IoError k)
    | .ok buf =>
      if buf.length < headerSize then .error .NotEnoughData
      else .ok buf

/-- `get_bytes_from_block` (`src/sfb_archive.rs:244`): opens the file at the
sharded path, seeks to `offset`, and reads exactly `len` bytes with
`read_exact` through `?`; a short file surfaces as the io error of
`read_exact`. -/
def get_bytes_from_block (fs : FS) (root : Path) (h : BlockHash)
    (offset len : Nat) : Except Error (List Nat) :=
  match fs (get_path_from_hash root h) with
  | .error .notFound => .error .BlockNotFound
  | .error k => .error (.IoError k)
  | .ok d =>
    match readExactAt d offset len with
    | .error k => .error (.IoError k)
    | .ok buf => .ok buf

/-- C1: the path sharding function is pure and deterministic — repeated calls
on the same hash yield the identical path (it is a function of the hash and
root alone); the hex rendering has exactly 64 characters; the first directory
component after the root is the last two characters of the rendering, the
second is the 3rd and 4th characters from the end, and the file name is the
full 64-character hex string with the fixed extension `bin`. -/
theorem c1_get_path_from_hash_sharding (root : Path) (h : BlockHash) :
    (encodeHex h).length = 64 ∧
    get_path_from_hash root h =
      root ++ [(encodeHex h).drop ((encodeHex h).length - 2),
        ((encodeHex h).drop ((encodeHex h).length - 4)).take 2,
        encodeHex h ++ '.' :: binExt] ∧
    get_path_from_hash root h = get_path_from_hash root h := by
  have hlen := length_encodeHex h
  refine ⟨hlen, ?_, rfl⟩
  rw [get_path_from_hash_eq, hlen]

theorem readExactAt_ok {d : List Nat} {pos n : Nat} (hn : n ≠ 0)
    (hle : pos + n ≤ d.length) :
    readExactAt d pos n = .ok ((d.drop pos).take n) := by
  simp [readExactAt, hn, hle]

theorem readLEAt_ok {d : List Nat} {pos n : Nat} (hn : n ≠ 0)
    (hle : pos + n ≤ d.length) :
    readLEAt d pos n = .ok (leNat ((d.drop pos).take n)) := by
  simp [readLEAt, readExactAt_ok hn hle, Except.map]

theorem take_one_drop {d : List Nat} {pos : Nat} (h : pos < d.length) :
    (d.drop pos).take 1 = [d.getD pos 0] := by
  induction d generalizing pos with
  | nil => simp at h
  | cons a t ih =>
    cases pos with
    | zero => simp [List.getD]
    | succ p =>
      simp only [List.drop_succ_cons, List.getD_cons_succ]
      exact ih (by simpa using h)

theorem readLEAt_marker {d : List Nat} (h : headerSize < d.length) :
    readLEAt d headerSize 1 = .ok (d.getD headerSize 0) := by
  rw [readLEAt_ok (by omega) (by omega), take_one_drop h]
  simp [leNat]

/-- C2 (amended): for every stored block whose file is long enough,
`block_tx_count` reads the single byte at offset equal to the fixed header
length and decodes the count by the four-way compact-size branch, returning
the decoded unsigned value cast to the signed 64-bit return type: marker
`0xFF` means read the next 8 bytes little-endian (so values of at least
`2 ^ 63` come out negative — see the counterexample); marker `0xFE` means
read the next 4 bytes little-endian; marker `0xFD` means read the next
2 bytes little-endian; and any other marker byte is itself the count with no
further bytes consumed. -/
theorem c2_block_tx_count_compact_size (fs : FS) (root : Path)
    (h : BlockHash) (d : List Nat)
    (hd : fs (get_path_from_hash root h) = .ok d) :
    (d.getD headerSize 0 = 255 → headerSize + 9 ≤ d.length →
      block_tx_count fs root h =
        .ok (toInt64 (leNat ((d.drop (headerSize + 1)).take 8)))) ∧
    (d.getD headerSize 0 = 254 → headerSize + 5 ≤ d.length →
      block_tx_count fs root h =
        .ok ((leNat ((d.drop (headerSize + 1)).take 4) : Int))) ∧
    (d.getD headerSize 0 = 253 → headerSize + 3 ≤ d.length →
      block_tx_count fs root h =
        .ok ((leNat ((d.drop (headerSize + 1)).take 2) : Int))) ∧
    (d.getD headerSize 0 ≠ 255 → d.getD headerSize 0 ≠ 254 →
      d.getD headerSize 0 ≠ 253 → headerSize < d.length →
      block_tx_count fs root h = .ok ((d.getD headerSize 0 : Int))) := by
  refine ⟨?_, ?_, ?_, ?_⟩
  · intro hm hlen
    simp only [block_tx_count, hd, readLEAt_marker (by omega : headerSize < d.length), hm,
      readLEAt_ok (by omega : (8 : Nat) ≠ 0) (by omega : headerSize + 1 + 8 ≤ d.length)]
    simp
  · intro hm hlen
    simp only [block_tx_count, hd, readLEAt_marker (by omega : headerSize < d.length), hm,
      readLEAt_ok (by omega : (4 : Nat) ≠ 0) (by omega : headerSize + 1 + 4 ≤ d.length)]
    simp
  · intro hm hlen
    simp only [block_tx_count, hd, readLEAt_marker (by omega : headerSize < d.length), hm,
      readLEAt_ok (by omega : (2 : Nat) ≠ 0) (by omega : headerSize + 1 + 2 ≤ d.length)]
    simp
  · intro hm1 hm2 hm3 hlen
    rw [List.getD_eq_getElem?_getD] at hm1 hm2 hm3
    simp only [block_tx_count, hd, readLEAt_marker hlen]
    simp [hm1, hm2, hm3]

/-- An all-zero block hash, used as the concrete hash of witnesses and
counterexamples. -/
def zeroHash : BlockHash := ⟨List.replicate 32 0, by decide⟩

/-- A file whose compact-size field is the `0xFF` marker followed by the
8-byte little-endian encoding of `2 ^ 63`. -/
def c2File : List Nat :=
  List.replicate headerSize 0 ++ 255 :: [0, 0, 0, 0, 0, 0, 0, 128]

/-- A filesystem holding only `c2File` at the canonical path of the all-zero
hash. -/
def c2FS : FS := fun p =>
  if p = get_path_from_hash [] zeroHash then .ok c2File else .error .notFound

/-- C2 (counterexample): on a stored block whose compact-size field is the
`0xFF` marker followed by the little-endian encoding of `2 ^ 63`,
`block_tx_count` returns the negative value `-(2 ^ 63)` — not the 64-bit
little-endian value `2 ^ 63` that the claim calls the count. -/
theorem c2_counterexample :
    block_tx_count c2FS [] zeroHash = .ok (-(2 ^ 63) : Int) ∧
    block_tx_count c2FS [] zeroHash ≠ .ok (((2 ^ 63 : Nat) : Int)) := by
  have hpos : block_tx_count c2FS [] zeroHash = .ok (-(2 ^ 63) : Int) := by rfl
  refine ⟨hpos, ?_⟩
  rw [hpos]
  intro hcontra
  simp only [Except.ok.injEq] at hcontra
  have h64 : ((2 ^ 63 : Nat) : Int) = 2 ^ 63 := by norm_num
  rw [h64] at hcontra
  omega

/-- A file whose compact-size field is the direct marker byte `5`. -/
def c2WitFile : List Nat := List.replicate headerSize 0 ++ [5]

/-- A filesystem holding only `c2WitFile` at the canonical path of the
all-zero hash. -/
def c2WitFS : FS := fun p =>
  if p = get_path_from_hash [] zeroHash then .ok c2WitFile else .error .notFound

theorem c2_block_tx_count_compact_size_witness :
    block_tx_count c2WitFS [] zeroHash = .ok (5 : Int) := by
  have h4 :=
    (c2_block_tx_count_compact_size c2WitFS [] zeroHash c2WitFile rfl).2.2.2
  exact h4 (by decide) (by decide) (by decide) (by decide)

/-- C3: storing never overwrites — starting from a filesystem with no entry
at the canonical path, a first `store_block` succeeds, a second `store_block`
for the same hash fails with `BlockExists` and leaves the filesystem
untouched (no write is performed), and the stored bytes remain exactly those
of the first successful store. -/
theorem c3_store_block_no_overwrite (fs : FS) (root : Path) (h : BlockHash)
    (b1 b2 : List Nat)
    (habs : fs (get_path_from_hash root h) = .error .notFound) :
    (store_block fs root h b1).1 = .ok () ∧
    store_block (store_block fs root h b1).2 root h b2 =
      (.error .BlockExists, (store_block fs root h b1).2) ∧
    get_block (store_block fs root h b1).2 root h = .ok b1 := by
  simp [store_block, block_exists, habs, get_block]

/-- An empty filesystem: every path is absent. -/
def emptyFS : FS := fun _ => .error .notFound

theorem c3_store_block_no_overwrite_witness :
    (store_block emptyFS [] zeroHash [1] ).1 = .ok () ∧
    store_block (store_block emptyFS [] zeroHash [1] ).2 [] zeroHash [2] =
      (.error .BlockExists, (store_block emptyFS [] zeroHash [1] ).2) ∧
    get_block (store_block emptyFS [] zeroHash [1] ).2 [] zeroHash =
      .ok [1] :=
  c3_store_block_no_overwrite emptyFS [] zeroHash [1] [2] rfl

/-- C4: round-trip — for every byte sequence and every hash with no entry
currently present, a successful `store_block` followed by `get_block` yields
exactly the stored bytes, and `block_size` returns their length. -/
theorem c4_store_get_roundtrip (fs : FS) (root : Path) (h : BlockHash)
    (B : List Nat)
    (habs : fs (get_path_from_hash root h) = .error .notFound) :
    (store_block fs root h B).1 = .ok () ∧
    get_block (store_block fs root h B).2 root h = .ok B ∧
    block_size (store_block fs root h B).2 root h = .ok B.length := by
  simp [store_block, block_exists, habs, get_block, block_size]

theorem c4_store_get_roundtrip_witness :
    (store_block emptyFS [] zeroHash [7, 8, 9] ).1 = .ok () ∧
    get_block (store_block emptyFS [] zeroHash [7, 8, 9] ).2 [] zeroHash =
      .ok [7, 8, 9] ∧
    block_size (store_block emptyFS [] zeroHash [7, 8, 9] ).2 [] zeroHash =
      .ok 3 :=
  c4_store_get_roundtrip emptyFS [] zeroHash [7, 8, 9] rfl

/-- C6: absence behaviour — for every hash with nothing at its canonical
path, `get_block`, `block_size`, `block_header` and `block_tx_count` each
fail with `BlockNotFound` and `block_exists` returns false without error;
and a failure of any other io error kind is returned as that io error, never
mapped to `BlockNotFound`. -/
theorem c6_absence_not_found (fs : FS) (root : Path) (h : BlockHash) :
    (fs (get_path_from_hash root h) = .error .notFound →
      get_block fs root h = .error .BlockNotFound ∧
      block_size fs root h = .error .BlockNotFound ∧
      block_header fs root h = .error .BlockNotFound ∧
      block_tx_count fs root h = .error .BlockNotFound ∧
      block_exists fs root h = .ok false) ∧
    (∀ k : IoErrorKind, k ≠ .notFound →
      fs (get_path_from_hash root h) = .error k →
      get_block fs root h = .error (.IoError k) ∧
      block_size fs root h = .error (.IoError k) ∧
      block_header fs root h = .error (.IoError k) ∧
      block_tx_count fs root h = .error (.IoError k) ∧
      block_exists fs root h = .error (.IoError k) ∧
      Error.IoError k ≠ Error.BlockNotFound) := by
  constructor
  · intro habs
    simp [get_block, block_size, block_header, block_tx_count, block_exists,
      habs]
  · intro k hk hfk
    cases k with
    | notFound => exact absurd rfl hk
    | unexpectedEof =>
      simp [get_block, block_size, block_header, block_tx_count, block_exists,
        hfk]
    | other c =>
      simp [get_block, block_size, block_header, block_tx_count, block_exists,
        hfk]

/-- A filesystem where every path fails with an opaque io error kind. -/
def failFS : FS := fun _ => .error (.other 7)

theorem c6_absence_not_found_witness :
    get_block emptyFS [] zeroHash = .error .BlockNotFound ∧
    block_exists emptyFS [] zeroHash = .ok false ∧
    block_exists failFS [] zeroHash = .error (.IoError (.other 7)) := by
  have h1 := (c6_absence_not_found emptyFS [] zeroHash).1 rfl
  have h2 := (c6_absence_not_found failFS [] zeroHash).2 (.other 7)
    (by decide) rfl
  exact ⟨h1.1, h1.2.2.2.2, h2.2.2.2.2.1⟩

/-- A filesystem holding only a 10-byte file (shorter than the 80-byte
header) at the canonical path of the all-zero hash. -/
def c7FS : FS := fun p =>
  if p = get_path_from_hash [] zeroHash then .ok (List.replicate 10 0)
  else .error .notFound

/-- C7: on a file at its canonical path holding fewer bytes than the
operation requires, `block_header`, `block_tx_count` and
`get_bytes_from_block` fail with the io error of the failed `read_exact`
(`UnexpectedEof`) — distinguishable from `BlockNotFound`, but not the
`NotEnoughData` error kind the claim states: the guard that would return
`NotEnoughData` in `block_header` compares the full-buffer length
`read_exact` returns on success and can never fire. -/
theorem c7_truncation_unexpected_eof :
    block_header c7FS [] zeroHash = .error (.IoError .unexpectedEof) ∧
    block_tx_count c7FS [] zeroHash = .error (.IoError .unexpectedEof) ∧
    get_bytes_from_block c7FS [] zeroHash 0 20 =
      .error (.IoError .unexpectedEof) ∧
    Error.IoError .unexpectedEof ≠ Error.NotEnoughData ∧
    Error.IoError .unexpectedEof ≠ Error.BlockNotFound := by
  refine ⟨by rfl, by rfl, by rfl, by decide, by decide⟩

/-- C10: for every stored block whose compact-size field carries the `0xFF`
marker followed by an 8-byte little-endian value `v` with `2 ^ 63 ≤ v`,
`block_tx_count` returns `v - 2 ^ 64` — the value reinterpreted as a signed
64-bit integer — which is negative. -/
theorem c10_tx_count_ff_wraps (fs : FS) (root : Path) (h : BlockHash)
    (d : List Nat) (v : Nat)
    (hd : fs (get_path_from_hash root h) = .ok d)
    (hm : d.getD headerSize 0 = 255)
    (hlen : headerSize + 9 ≤ d.length)
    (hv : leNat ((d.drop (headerSize + 1)).take 8) = v)
    (hv63 : 2 ^ 63 ≤ v) (hv64 : v < 2 ^ 64) :
    block_tx_count fs root h = .ok ((v : Int) - 2 ^ 64) ∧
    (v : Int) - 2 ^ 64 < 0 := by
  constructor
  · simp only [block_tx_count, hd, readLEAt_marker (by omega : headerSize < d.length), hm,
      readLEAt_ok (by omega : (8 : Nat) ≠ 0) (by omega : headerSize + 1 + 8 ≤ d.length)]
    simp only [hv]
    have hnot : ¬ v < 2 ^ 63 := by omega
    unfold toInt64
    rw [if_neg hnot]
    simp
  · have : (v : Int) < 2 ^ 64 := by exact_mod_cast hv64
    omega

theorem c10_tx_count_ff_wraps_witness :
    block_tx_count c2FS [] zeroHash =
      .ok (((2 ^ 63 : Nat) : Int) - 2 ^ 64) ∧
    ((2 ^ 63 : Nat) : Int) - 2 ^ 64 < 0 :=
  c10_tx_count_ff_wraps c2FS [] zeroHash c2File (2 ^ 63) rfl (by decide)
    (by decide) (by decide) (by norm_num) (by norm_num)

/-- A directory tree, the state observed by the enumeration scan
(`block_list_bgrnd`): a file with its byte content, a directory with its
named entries in listing order, or a directory whose `read_dir` fails with
the given io error kind. -/
inductive FsTree : Type where
  | file : List Nat → FsTree
  | badDir : IoErrorKind → FsTree
  | dir : List (List Char × FsTree) → FsTree

/-- The `path.is_dir()` test of the scan loop: true for directories,
including ones whose listing will fail. -/
def isDirNode : FsTree → Bool
  | .file _ => false
  | .badDir _ => true
  | .dir _ => true

/-- The io error kind of `read_dir` on a path that is a plain file
(`NotADirectory`), reachable only when the archive root itself is a file. -/
def enotdirCode : Nat := 20

/-- The acceptance filter applied to one file entry of the scan
(`src/sfb_archive.rs:88`): ignore entries whose extension is missing or is
not `bin`; ignore entries whose stem is not a valid block hash; re-derive
the correct path from the stem with the same slicing as
`get_path_from_hash` and ignore the entry when its actual path differs.
Returns the hash to send, or `none` for a silent skip. -/
def checkFile (root childPath : Path) (name : List Char) : Option BlockHash :=
  match fileExtension name with
  | none => none
  | some ext =>
    if ext ≠ binExt then none
    else
      let f := fileStem name
      match parseHash f with
      | none => none
      | some h =>
        let correct : Path :=
          root ++ [f.drop 62, (f.drop 60).take 2, setExtension f binExt]
        if childPath = correct then some h else none

/-- One pass over the listed entries of a directory at `p`, in listing
order: subdirectories are pushed for later processing (returned in encounter
order) and files are run through the acceptance filter, accepted hashes
being sent in encounter order. -/
def processEntries (root p : Path) :
    List (List Char × FsTree) → List BlockHash × List (Path × FsTree)
  | [] => ([], [])
  | (name, t) :: rest =>
    let pr := processEntries root p rest
    match t with
    | .file _ =>
      match checkFile root (p ++ [name]) name with
      | some h => (h :: pr.1, pr.2)
      | none => (pr.1, pr.2)
    | .dir _ => (pr.1, (p ++ [name], t) :: pr.2)
    | .badDir _ => (pr.1, (p ++ [name], t) :: pr.2)

mutual

/-- Weight of a tree, used as the termination measure of the scan loop. -/
def treeWeight : FsTree → Nat
  | .file _ => 1
  | .badDir _ => 1
  | .dir es => 1 + entriesWeight es

/-- Combined weight of a list of directory entries. -/
def entriesWeight : List (List Char × FsTree) → Nat
  | [] => 0
  | e :: rest => treeWeight e.2 + entriesWeight rest

end

/-- Combined weight of a scan stack. -/
def stackWeight : List (Path × FsTree) → Nat
  | [] => 0
  | e :: rest => treeWeight e.2 + stackWeight rest

theorem treeWeight_pos : ∀ t : FsTree, 0 < treeWeight t
  | .file _ => by simp [treeWeight]
  | .badDir _ => by simp [treeWeight]
  | .dir _ => by simp [treeWeight]

theorem stackWeight_append (l r : List (Path × FsTree)) :
    stackWeight (l ++ r) = stackWeight l + stackWeight r := by
  induction l with
  | nil => simp [stackWeight]
  | cons e rest ih => simp [stackWeight, ih]; omega

theorem stackWeight_reverse (l : List (Path × FsTree)) :
    stackWeight l.reverse = stackWeight l := by
  induction l with
  | nil => rfl
  | cons e rest ih =>
    simp only [List.reverse_cons, stackWeight_append, ih, stackWeight]
    omega

theorem stackWeight_processEntries (root p : Path) :
    ∀ es : List (List Char × FsTree),
      stackWeight (processEntries root p es).2 ≤ entriesWeight es := by
  intro es
  induction es with
  | nil => simp [processEntries, stackWeight, entriesWeight]
  | cons e rest ih =>
    obtain ⟨name, t⟩ := e
    have hpos := treeWeight_pos t
    cases t with
    | file d =>
      simp only [processEntries, entriesWeight]
      cases checkFile root (p ++ [name]) name <;> simp <;> omega
    | dir es2 =>
      simp only [processEntries, entriesWeight, stackWeight]
      omega
    | badDir k =>
      simp only [processEntries, entriesWeight, stackWeight]
      omega

/-- `block_list_bgrnd` (`src/sfb_archive.rs:72`), acting on an explicit
stack of pending directories seeded with the root: pop a directory, list it
(a listing failure propagates through `?`, abandoning the rest of the
stack), push its subdirectories — the most recently pushed is popped next —
and send the hashes of accepted files. Returns the hashes sent over the
channel in order, together with the task's final result. Sending is
modelled as always succeeding (the consumer of the stream is not dropped),
and `read_dir` on a plain file fails with `NotADirectory`. -/
def scanLoop (root : Path) :
    List (Path × FsTree) → List BlockHash × Except Error Unit
  | [] => ([], .ok ())
  | (_, .file _) :: _ => ([], .error (.IoError (.other enotdirCode)))
  | (_, .badDir k) :: _ => ([], .error (.IoError k))
  | (p, .dir es) :: rest =>
    let pr := processEntries root p es
    let r := scanLoop root (pr.2.reverse ++ rest)
    (pr.1 ++ r.1, r.2)
termination_by stack => stackWeight stack
decreasing_by
  simp only [stackWeight_append, stackWeight_reverse, stackWeight]
  have h1 := stackWeight_processEntries root p es
  simp only [treeWeight]
  omega

mutual

/-- Structural form of the scan of one subtree mounted at `p`: emits the
accepted files of a directory, then scans its subdirectories most recently
listed first (the stack pop order), stopping at the first listing failure. -/
def scanTree (root p : Path) : FsTree → List BlockHash × Except Error Unit
  | .file _ => ([], .error (.IoError (.other enotdirCode)))
  | .badDir k => ([], .error (.IoError k))
  | .dir es =>
    ((processEntries root p es).1 ++ (scanDirs root p es).1,
      (scanDirs root p es).2)

/-- Structural scan of the subdirectories among listed entries, later
entries first (matching the last-in first-out stack order), stopping at the
first failure. -/
def scanDirs (root p : Path) :
    List (List Char × FsTree) → List BlockHash × Except Error Unit
  | [] => ([], .ok ())
  | (name, t) :: rest =>
    if isDirNode t then
      match scanDirs root p rest with
      | (hs, .error e) => (hs, .error e)
      | (hs, .ok _) =>
        match scanTree root (p ++ [name]) t with
        | (hs2, r2) => (hs ++ hs2, r2)
    else scanDirs root p rest

end

/-- Sequencing of two scan results: the second runs only if the first
succeeded, and emitted hashes accumulate. -/
def seqScan (a b : List BlockHash × Except Error Unit) :
    List BlockHash × Except Error Unit :=
  match a with
  | (hs, .error e) => (hs, .error e)
  | (hs, .ok _) => (hs ++ b.1, b.2)

theorem seqScan_assoc (a b c : List BlockHash × Except Error Unit) :
    seqScan (seqScan a b) c = seqScan a (seqScan b c) := by
  obtain ⟨ha, ra⟩ := a
  cases ra with
  | error e => simp [seqScan]
  | ok u =>
    obtain ⟨hb, rb⟩ := b
    cases rb with
    | error e => simp [seqScan]
    | ok u2 => simp [seqScan]

theorem seqScan_nil_ok (b : List BlockHash × Except Error Unit) :
    seqScan ([], .ok ()) b = b := by
  simp [seqScan]

theorem scanDirs_cons_dir (root p : Path) (name : List Char) (t : FsTree)
    (rest' : List (List Char × FsTree)) (hdir : isDirNode t = true) :
    scanDirs root p ((name, t) :: rest') =
      seqScan (scanDirs root p rest') (scanTree root (p ++ [name]) t) := by
  simp only [scanDirs, if_pos hdir]
  cases hsd : scanDirs root p rest' with
  | mk hs r =>
    cases r with
    | error e => simp [seqScan]
    | ok u => simp [seqScan]

/-- The stack loop factors through the structural scan: processing a popped
item and then the remaining stack is the sequential composition of the
subtree scan and the scan of the rest. -/
theorem scanLoop_cons (root : Path) :
    ∀ n (p : Path) (t : FsTree) (rest : List (Path × FsTree)),
      treeWeight t + stackWeight rest ≤ n →
      scanLoop root ((p, t) :: rest) =
        seqScan (scanTree root p t) (scanLoop root rest) := by
  intro n
  induction n with
  | zero =>
    intro p t rest hle
    have := treeWeight_pos t
    omega
  | succ n ih =>
    intro p t rest hle
    cases t with
    | file d => simp [scanLoop, scanTree, seqScan]
    | badDir k => simp [scanLoop, scanTree, seqScan]
    | dir es =>
      have inner : ∀ es2 : List (List Char × FsTree),
          ∀ rest2 : List (Path × FsTree),
          entriesWeight es2 + stackWeight rest2 ≤ n →
          scanLoop root ((processEntries root p es2).2.reverse ++ rest2) =
            seqScan (scanDirs root p es2) (scanLoop root rest2) := by
        intro es2
        induction es2 with
        | nil =>
          intro rest2 hle2
          simp [processEntries, scanDirs, seqScan_nil_ok]
        | cons e rest' ih2 =>
          intro rest2 hle2
          obtain ⟨name, t'⟩ := e
          cases t' with
          | file d =>
            simp only [processEntries]
            cases hcf : checkFile root (p ++ [name]) name with
            | some hh =>
              simp only [scanDirs, isDirNode, if_neg (by simp : ¬ (false = true))]
              exact ih2 rest2 (by
                simp only [entriesWeight, treeWeight] at hle2 ⊢
                omega)
            | none =>
              simp only [scanDirs, isDirNode, if_neg (by simp : ¬ (false = true))]
              exact ih2 rest2 (by
                simp only [entriesWeight, treeWeight] at hle2 ⊢
                omega)
          | dir es3 =>
            simp only [processEntries, List.reverse_cons, List.append_assoc, List.singleton_append]
            have hw : entriesWeight rest' +
                stackWeight ((p ++ [name], FsTree.dir es3) :: rest2) ≤ n := by
              simp only [stackWeight, entriesWeight, treeWeight] at hle2 ⊢
              omega
            rw [ih2 _ hw]
            have hw2 : treeWeight (FsTree.dir es3) + stackWeight rest2 ≤ n := by
              simp only [entriesWeight, treeWeight] at hle2 ⊢
              omega
            rw [ih _ _ _ hw2]
            rw [← seqScan_assoc, scanDirs_cons_dir root p name _ rest' (by rfl)]
          | badDir k =>
            simp only [processEntries, List.reverse_cons, List.append_assoc, List.singleton_append]
            have hw : entriesWeight rest' +
                stackWeight ((p ++ [name], FsTree.badDir k) :: rest2) ≤ n := by
              simp only [stackWeight, entriesWeight, treeWeight] at hle2 ⊢
              omega
            rw [ih2 _ hw]
            have hw2 : treeWeight (FsTree.badDir k) + stackWeight rest2 ≤ n := by
              simp only [entriesWeight, treeWeight] at hle2 ⊢
              omega
            rw [ih _ _ _ hw2]
            rw [← seqScan_assoc, scanDirs_cons_dir root p name _ rest' (by rfl)]
      simp only [scanLoop]
      rw [inner es rest (by
        simp only [treeWeight] at hle
        omega)]
      simp only [scanTree]
      cases hsd : scanDirs root p es with
      | mk hs r =>
        cases r with
        | error e => simp [seqScan]
        | ok u => simp [seqScan, List.append_assoc]

/-- `block_list_bgrnd` seeded with the root directory, as spawned by
`block_list` (`src/sfb_archive.rs:278`): the hashes sent over the channel
in order, together with the background task's final result. -/
def block_list_bgrnd (root : Path) (t : FsTree) :
    List BlockHash × Except Error Unit :=
  scanLoop root [(root, t)]

theorem block_list_bgrnd_eq (root : Path) (t : FsTree) :
    block_list_bgrnd root t = scanTree root root t := by
  unfold block_list_bgrnd
  rw [scanLoop_cons root (treeWeight t + 0) root t [] (by simp [stackWeight])]
  simp only [seqScan]
  cases hst : scanTree root root t with
  | mk hs r =>
    cases r with
    | error e => rfl
    | ok u => simp [scanLoop]

/-- The contents of the stream handed to the caller of `block_list`: the
stream polls only the channel receiver
(`BlockHashListStreamFromChannel::poll_next`, `src/block_archive.rs:112`),
so the caller sees exactly the hashes the background task sent, in order,
and then end of stream; the task's result itself is never read. -/
def block_list (root : Path) (t : FsTree) : List BlockHash :=
  (scanTree root root t).1

theorem block_list_eq_bgrnd (root : Path) (t : FsTree) :
    block_list root t = (block_list_bgrnd root t).1 := by
  rw [block_list_bgrnd_eq]
  rfl

/-- An accepted file entry names its hash's canonical path: whenever the
acceptance filter yields a hash, the entry's actual path is exactly the
sharded path of that hash, and the file name is the hex rendering with the
`bin` extension. -/
theorem checkFile_some {root q : Path} {name : List Char} {h : BlockHash}
    (hc : checkFile root q name = some h) :
    q = get_path_from_hash root h ∧ name = encodeHex h ++ '.' :: binExt := by
  unfold checkFile at hc
  cases hext : fileExtension name with
  | none => rw [hext] at hc; cases hc
  | some ext =>
    simp only [hext] at hc
    by_cases hbin : ext ≠ binExt
    · rw [if_pos hbin] at hc; cases hc
    · rw [if_neg hbin] at hc
      push_neg at hbin
      cases hp : parseHash (fileStem name) with
      | none => simp only [hp] at hc; cases hc
      | some h2 =>
        simp only [hp] at hc
        by_cases hq : q = root ++ [(fileStem name).drop 62,
            ((fileStem name).drop 60).take 2, setExtension (fileStem name) binExt]
        · rw [if_pos hq] at hc
          simp only [Option.some.injEq] at hc
          subst hc
          obtain ⟨henc, -⟩ := encodeHex_of_parseHash hp
          constructor
          · rw [hq, get_path_from_hash, henc]
          · rw [name_eq_stem_dot_ext hext, hbin, ← henc]
        · rw [if_neg hq] at hc; cases hc

/-- The acceptance filter stated over the entry's path alone, in the words
of the spec: the last path component has extension `bin`, its stem parses as
a hash, and the path equals the canonical sharded path of that hash. -/
def acceptedHash (root q : Path) : Option BlockHash :=
  match q.getLast? with
  | none => none
  | some name =>
    match fileExtension name, parseHash (fileStem name) with
    | some ext, some h =>
      if ext = binExt ∧ q = get_path_from_hash root h then some h else none
    | some _, none => none
    | none, _ => none

theorem acceptedHash_some {root q : Path} {h : BlockHash}
    (ha : acceptedHash root q = some h) : q = get_path_from_hash root h := by
  unfold acceptedHash at ha
  cases hl : q.getLast? with
  | none => rw [hl] at ha; cases ha
  | some name =>
    rw [hl] at ha
    cases hext : fileExtension name with
    | none => simp only [hext] at ha; cases ha
    | some ext =>
      cases hp : parseHash (fileStem name) with
      | none => simp only [hext, hp] at ha; cases ha
      | some h2 =>
        simp only [hext, hp] at ha
        by_cases hcond : ext = binExt ∧ q = get_path_from_hash root h2
        · rw [if_pos hcond] at ha
          simp only [Option.some.injEq] at ha
          subst ha
          exact hcond.2
        · rw [if_neg hcond] at ha; cases ha

/-- The filter the scan applies to a file named `name` in directory `p`
agrees with the path-level acceptance predicate. -/
theorem checkFile_eq_acceptedHash (root p : Path) (name : List Char) :
    checkFile root (p ++ [name]) name = acceptedHash root (p ++ [name]) := by
  cases hext : fileExtension name with
  | none => simp [checkFile, acceptedHash, hext, List.getLast?_concat]
  | some ext =>
    cases hp : parseHash (fileStem name) with
    | none => simp [checkFile, acceptedHash, hext, hp, List.getLast?_concat]
    | some h =>
      obtain ⟨henc, -⟩ := encodeHex_of_parseHash hp
      have hcanon : root ++ [(fileStem name).drop 62,
          ((fileStem name).drop 60).take 2, setExtension (fileStem name) binExt] =
          get_path_from_hash root h := by
        rw [get_path_from_hash, henc]
      by_cases hbin : ext = binExt
      · by_cases hq : p ++ [name] = get_path_from_hash root h
        · simp only [checkFile, acceptedHash, hext, hp, List.getLast?_concat,
            hbin, hcanon]
          simp [hq]
        · simp only [checkFile, acceptedHash, hext, hp, List.getLast?_concat,
            hbin, hcanon]
          simp [hq]
      · simp [checkFile, acceptedHash, hext, hp, List.getLast?_concat, hbin]

mutual

/-- All files in a subtree mounted at `p`, with their absolute paths and
contents, in listing order. -/
def treeFiles (p : Path) : FsTree → List (Path × List Nat)
  | .file d => [(p, d)]
  | .badDir _ => []
  | .dir es => entriesFiles p es

/-- All files under the listed entries of a directory at `p`. -/
def entriesFiles (p : Path) :
    List (List Char × FsTree) → List (Path × List Nat)
  | [] => []
  | (n, t) :: rest => treeFiles (p ++ [n]) t ++ entriesFiles p rest

end

theorem mem_entriesFiles_of_entry :
    ∀ (es : List (List Char × FsTree)) (p : Path) (name : List Char)
      (t : FsTree), (name, t) ∈ es →
      ∀ x ∈ treeFiles (p ++ [name]) t, x ∈ entriesFiles p es
  | [], _, _, _, hmem => by cases hmem
  | e :: rest, p, name, t, hmem => by
    intro x hx
    rcases List.mem_cons.mp hmem with rfl | hmem2
    · simp only [entriesFiles, List.mem_append]
      exact Or.inl hx
    · simp only [entriesFiles, List.mem_append]
      exact Or.inr (mem_entriesFiles_of_entry rest p name t hmem2 x hx)

theorem processEntries_sound (root : Path) :
    ∀ (es : List (List Char × FsTree)) (p : Path) (hsh : BlockHash),
      hsh ∈ (processEntries root p es).1 →
      ∃ d, (get_path_from_hash root hsh, d) ∈ entriesFiles p es
  | [], _, _, hmem => by cases hmem
  | (name, t) :: rest, p, hsh, hmem => by
    cases t with
    | file d =>
      simp only [processEntries] at hmem
      cases hcf : checkFile root (p ++ [name]) name with
      | some h2 =>
        rw [hcf] at hmem
        simp only at hmem
        rcases List.mem_cons.mp hmem with rfl | hmem2
        · refine ⟨d, ?_⟩
          have hpath := (checkFile_some hcf).1
          simp only [entriesFiles, treeFiles, List.mem_append, List.mem_singleton]
          exact Or.inl (by rw [← hpath])
        · obtain ⟨d2, hd2⟩ := processEntries_sound root rest p hsh hmem2
          exact ⟨d2, by simp only [entriesFiles, List.mem_append]; exact Or.inr hd2⟩
      | none =>
        rw [hcf] at hmem
        obtain ⟨d2, hd2⟩ := processEntries_sound root rest p hsh hmem
        exact ⟨d2, by simp only [entriesFiles, List.mem_append]; exact Or.inr hd2⟩
    | dir es2 =>
      simp only [processEntries] at hmem
      obtain ⟨d2, hd2⟩ := processEntries_sound root rest p hsh hmem
      exact ⟨d2, by simp only [entriesFiles, List.mem_append]; exact Or.inr hd2⟩
    | badDir k =>
      simp only [processEntries] at hmem
      obtain ⟨d2, hd2⟩ := processEntries_sound root rest p hsh hmem
      exact ⟨d2, by simp only [entriesFiles, List.mem_append]; exact Or.inr hd2⟩

mutual

/-- Soundness of the scan: every hash it emits from a subtree names a file
of that subtree sitting at exactly the hash's canonical sharded path. -/
theorem scanTree_sound (root : Path) :
    ∀ (t : FsTree) (p : Path) (hsh : BlockHash),
      hsh ∈ (scanTree root p t).1 →
      ∃ d, (get_path_from_hash root hsh, d) ∈ treeFiles p t
  | .file _, _, _, hmem => by simp [scanTree] at hmem
  | .badDir _, _, _, hmem => by simp [scanTree] at hmem
  | .dir es, p, hsh, hmem => by
    simp only [scanTree, List.mem_append] at hmem
    rcases hmem with hmem | hmem
    · obtain ⟨d, hd⟩ := processEntries_sound root es p hsh hmem
      exact ⟨d, by simpa [treeFiles] using hd⟩
    · obtain ⟨d, hd⟩ := scanDirs_sound root es p hsh hmem
      exact ⟨d, by simpa [treeFiles] using hd⟩

theorem scanDirs_sound (root : Path) :
    ∀ (es : List (List Char × FsTree)) (p : Path) (hsh : BlockHash),
      hsh ∈ (scanDirs root p es).1 →
      ∃ d, (get_path_from_hash root hsh, d) ∈ entriesFiles p es
  | [], _, _, hmem => by simp [scanDirs] at hmem
  | (name, t) :: rest, p, hsh, hmem => by
    by_cases hdir : isDirNode t = true
    · rw [scanDirs_cons_dir root p name t rest hdir] at hmem
      cases hsd : scanDirs root p rest with
      | mk hs r =>
        rw [hsd] at hmem
        cases r with
        | error e =>
          simp only [seqScan] at hmem
          obtain ⟨d, hd⟩ := scanDirs_sound root rest p hsh (by rw [hsd]; exact hmem)
          exact ⟨d, by simp only [entriesFiles, List.mem_append]; exact Or.inr hd⟩
        | ok u =>
          simp only [seqScan, List.mem_append] at hmem
          rcases hmem with hmem | hmem
          · obtain ⟨d, hd⟩ := scanDirs_sound root rest p hsh (by rw [hsd]; exact hmem)
            exact ⟨d, by simp only [entriesFiles, List.mem_append]; exact Or.inr hd⟩
          · obtain ⟨d, hd⟩ := scanTree_sound root t (p ++ [name]) hsh hmem
            exact ⟨d, by simp only [entriesFiles, List.mem_append]; exact Or.inl hd⟩
    · have hfile : scanDirs root p ((name, t) :: rest) = scanDirs root p rest := by
        simp only [scanDirs, if_neg hdir]
      rw [hfile] at hmem
      obtain ⟨d, hd⟩ := scanDirs_sound root rest p hsh hmem
      exact ⟨d, by simp only [entriesFiles, List.mem_append]; exact Or.inr hd⟩

end

/-- C5: canonical-path invariant (misplaced-file invisibility) — every hash
yielded by the enumeration names a file sitting at exactly its canonical
sharded path (so a file located anywhere else is never yielded); and
`block_exists` returns true only when a file exists at exactly the canonical
path for the hash (it consults no other path). -/
theorem c5_canonical_path_only (root : Path) (t : FsTree) (fs : FS)
    (h : BlockHash) :
    (h ∈ block_list root t →
      ∃ d, (get_path_from_hash root h, d) ∈ treeFiles root t) ∧
    (block_exists fs root h = .ok true →
      ∃ d, fs (get_path_from_hash root h) = .ok d) := by
  constructor
  · intro hmem
    exact scanTree_sound root t root h hmem
  · intro hex
    unfold block_exists at hex
    cases hfs : fs (get_path_from_hash root h) with
    | ok d => exact ⟨d, rfl⟩
    | error k =>
      rw [hfs] at hex
      cases k <;> simp at hex

/-- The 64-character hex rendering of the all-zero hash. -/
def zeros64 : List Char := List.replicate 64 '0'

/-- The file name of the all-zero hash's archive entry. -/
def exEntryName : List Char := zeros64 ++ '.' :: binExt

/-- A directory tree holding the all-zero hash's entry at its canonical
location, one stray `bin` file whose stem is not a hash, one file with a
wrong extension, and one correctly named entry placed at a wrong (misplaced)
location. -/
def exTree : FsTree :=
  .dir [(['0', '0'],
          .dir [(['0', '0'], .dir [(exEntryName, .file [1])])]),
        (['s', 't', 'r', 'a', 'y', '.', 'b', 'i', 'n'], .file [3]),
        (['n', 'o', 't', 'e', '.', 't', 'x', 't'], .file [4]),
        (['a', 'a'], .dir [(exEntryName, .file [9])])]

theorem c5_canonical_path_only_witness :
    (∃ d, (get_path_from_hash [] zeroHash, d) ∈ treeFiles [] exTree) ∧
    (∃ d, c2WitFS (get_path_from_hash [] zeroHash) = .ok d) :=
  ⟨(c5_canonical_path_only [] exTree c2WitFS zeroHash).1 (by decide),
   (c5_canonical_path_only [] exTree c2WitFS zeroHash).2 (by rfl)⟩

mutual

/-- Well-formedness of a tree as a real directory listing: no directory
listing fails, and sibling entry names are distinct. -/
def goodTree : FsTree → Bool
  | .file _ => true
  | .badDir _ => false
  | .dir es => goodEntries es

/-- Well-formedness of a list of directory entries. -/
def goodEntries : List (List Char × FsTree) → Bool
  | [] => true
  | (n, t) :: rest =>
    goodTree t && goodEntries rest && decide (n ∉ rest.map Prod.fst)

end

instance : Nonempty FsTree := ⟨.dir []⟩

mutual

/-- Completeness of the scan on a well-formed directory: it succeeds, and
the emitted hashes are a permutation of the hashes of exactly the accepted
files of the subtree. -/
theorem scanTree_complete (root : Path) :
    ∀ (t : FsTree) (p : Path), goodTree t = true → isDirNode t = true →
      (scanTree root p t).2 = .ok () ∧
      (scanTree root p t).1.Perm
        ((treeFiles p t).filterMap (fun e => acceptedHash root e.1))
  | .file _, _, _, hdir => by simp [isDirNode] at hdir
  | .badDir _, _, hgood, _ => by simp [goodTree] at hgood
  | .dir es, p, hgood, _ => by
    have hge : goodEntries es = true := by simpa [goodTree] using hgood
    obtain ⟨h1, h2⟩ := scanDirs_complete root es p hge
    exact ⟨h1, by simpa [scanTree, treeFiles] using h2⟩

theorem scanDirs_complete (root : Path) :
    ∀ (es : List (List Char × FsTree)) (p : Path), goodEntries es = true →
      (scanDirs root p es).2 = .ok () ∧
      ((processEntries root p es).1 ++ (scanDirs root p es).1).Perm
        ((entriesFiles p es).filterMap (fun e => acceptedHash root e.1))
  | [], p, _ => by simp [scanDirs, processEntries, entriesFiles]
  | (name, t) :: rest, p, hgood => by
    have hgt : goodTree t = true := by
      simp only [goodEntries, Bool.and_eq_true] at hgood
      exact hgood.1.1
    have hgr : goodEntries rest = true := by
      simp only [goodEntries, Bool.and_eq_true] at hgood
      exact hgood.1.2
    obtain ⟨ihok, ihperm⟩ := scanDirs_complete root rest p hgr
    cases t with
    | file d =>
      have hsd : scanDirs root p ((name, .file d) :: rest) =
          scanDirs root p rest := by
        simp [scanDirs, isDirNode]
      have hef : entriesFiles p ((name, FsTree.file d) :: rest) =
          (p ++ [name], d) :: entriesFiles p rest := by
        simp [entriesFiles, treeFiles]
      rw [hsd, hef]
      cases hcf : checkFile root (p ++ [name]) name with
      | some h2 =>
        have hacc : acceptedHash root (p ++ [name]) = some h2 := by
          rw [← checkFile_eq_acceptedHash root p name, hcf]
        refine ⟨ihok, ?_⟩
        simp only [processEntries, hcf, List.filterMap_cons, hacc]
        exact (List.Perm.cons h2 ihperm)
      | none =>
        have hacc : acceptedHash root (p ++ [name]) = none := by
          rw [← checkFile_eq_acceptedHash root p name, hcf]
        refine ⟨ihok, ?_⟩
        simp only [processEntries, hcf, List.filterMap_cons, hacc]
        exact ihperm
    | dir es2 =>
      obtain ⟨chok, chperm⟩ :=
        scanTree_complete root (FsTree.dir es2) (p ++ [name]) hgt (by rfl)
      have hsd := scanDirs_cons_dir root p name (FsTree.dir es2) rest (by rfl)
      rw [hsd]
      cases hsdr : scanDirs root p rest with
      | mk hs r =>
        rw [hsdr] at ihok ihperm
        subst ihok
        refine ⟨by simpa [seqScan] using chok, ?_⟩
        simp only [seqScan]
        have hef : entriesFiles p ((name, FsTree.dir es2) :: rest) =
            treeFiles (p ++ [name]) (FsTree.dir es2) ++ entriesFiles p rest := by
          simp [entriesFiles]
        rw [hef, List.filterMap_append]
        have hpe : (processEntries root p ((name, FsTree.dir es2) :: rest)).1 =
            (processEntries root p rest).1 := by
          simp [processEntries]
        rw [hpe]
        refine List.Perm.trans ?_ List.perm_append_comm
        have hassoc : (processEntries root p rest).1 ++
            (hs ++ (scanTree root (p ++ [name]) (FsTree.dir es2)).1) =
            ((processEntries root p rest).1 ++ hs) ++
            (scanTree root (p ++ [name]) (FsTree.dir es2)).1 :=
          (List.append_assoc _ _ _).symm
        rw [hassoc]
        exact List.Perm.append ihperm chperm
    | badDir k =>
      simp [goodEntries, goodTree] at hgood

end

mutual

theorem mem_treeFiles_prefix :
    ∀ (t : FsTree) (p q : Path) (d : List Nat),
      (q, d) ∈ treeFiles p t → ∃ s, q = p ++ s
  | .file d2, p, q, d, hmem => by
    simp only [treeFiles, List.mem_singleton, Prod.mk.injEq] at hmem
    exact ⟨[], by simp [hmem.1]⟩
  | .badDir _, _, _, _, hmem => by simp [treeFiles] at hmem
  | .dir es, p, q, d, hmem => by
    simp only [treeFiles] at hmem
    exact mem_entriesFiles_prefix es p q d hmem

theorem mem_entriesFiles_prefix :
    ∀ (es : List (List Char × FsTree)) (p q : Path) (d : List Nat),
      (q, d) ∈ entriesFiles p es → ∃ s, q = p ++ s
  | [], _, _, _, hmem => by simp [entriesFiles] at hmem
  | (name, t) :: rest, p, q, d, hmem => by
    simp only [entriesFiles, List.mem_append] at hmem
    rcases hmem with hmem | hmem
    · obtain ⟨s, hs⟩ := mem_treeFiles_prefix t (p ++ [name]) q d hmem
      exact ⟨name :: s, by simp [hs]⟩
    · exact mem_entriesFiles_prefix rest p q d hmem

end

theorem mem_treeFiles_child_index {t : FsTree} {p q : Path}
    {name : List Char} {d : List Nat}
    (hmem : (q, d) ∈ treeFiles (p ++ [name]) t) :
    q[p.length]? = some name := by
  obtain ⟨s, hs⟩ := mem_treeFiles_prefix t (p ++ [name]) q d hmem
  subst hs
  rw [List.append_assoc, List.getElem?_append_right (le_refl p.length)]
  simp

theorem mem_entriesFiles_index :
    ∀ (es : List (List Char × FsTree)) (p q : Path) (d : List Nat),
      (q, d) ∈ entriesFiles p es →
      ∃ n, n ∈ es.map Prod.fst ∧ q[p.length]? = some n
  | [], _, _, _, hmem => by simp [entriesFiles] at hmem
  | (name, t) :: rest, p, q, d, hmem => by
    simp only [entriesFiles, List.mem_append] at hmem
    rcases hmem with hmem | hmem
    · exact ⟨name, by simp, mem_treeFiles_child_index hmem⟩
    · obtain ⟨n, hn1, hn2⟩ := mem_entriesFiles_index rest p q d hmem
      exact ⟨n, by simp [List.mem_map] at hn1 ⊢; tauto, hn2⟩

mutual

/-- On a well-formed tree the absolute paths of the listed files are all
distinct. -/
theorem treeFiles_paths_nodup :
    ∀ (t : FsTree) (p : Path), goodTree t = true →
      ((treeFiles p t).map Prod.fst).Nodup
  | .file _, _, _ => by simp [treeFiles]
  | .badDir _, _, hgood => by simp [goodTree] at hgood
  | .dir es, p, hgood => by
    simp only [treeFiles]
    exact entriesFiles_paths_nodup es p (by simpa [goodTree] using hgood)

theorem entriesFiles_paths_nodup :
    ∀ (es : List (List Char × FsTree)) (p : Path), goodEntries es = true →
      ((entriesFiles p es).map Prod.fst).Nodup
  | [], _, _ => by simp [entriesFiles]
  | (name, t) :: rest, p, hgood => by
    have hgt : goodTree t = true := by
      simp only [goodEntries, Bool.and_eq_true] at hgood
      exact hgood.1.1
    have hgr : goodEntries rest = true := by
      simp only [goodEntries, Bool.and_eq_true] at hgood
      exact hgood.1.2
    have hname : name ∉ rest.map Prod.fst := by
      simp only [goodEntries, Bool.and_eq_true, decide_eq_true_eq] at hgood
      exact hgood.2
    simp only [entriesFiles, List.map_append]
    refine List.Nodup.append
      (treeFiles_paths_nodup t (p ++ [name]) hgt)
      (entriesFiles_paths_nodup rest p hgr) ?_
    intro q hq1 hq2
    rw [List.mem_map] at hq1 hq2
    obtain ⟨⟨q1, d1⟩, hmem1, hq1eq⟩ := hq1
    obtain ⟨⟨q2, d2⟩, hmem2, hq2eq⟩ := hq2
    simp only at hq1eq hq2eq
    subst hq1eq
    subst hq2eq
    have hidx1 := mem_treeFiles_child_index hmem1
    obtain ⟨n, hn1, hn2⟩ := mem_entriesFiles_index rest p _ d2 hmem2
    rw [hidx1] at hn2
    simp only [Option.some.injEq] at hn2
    subst hn2
    exact hname hn1

end

/-- A list of files with pairwise distinct paths yields pairwise distinct
accepted hashes: an accepted hash pins its file's path to the canonical
sharded path. -/
theorem acceptedList_nodup (root : Path) :
    ∀ l : List (Path × List Nat), ((l.map Prod.fst).Nodup) →
      (l.filterMap (fun e => acceptedHash root e.1)).Nodup := by
  intro l
  induction l with
  | nil => simp
  | cons e rest ih =>
    intro hnd
    simp only [List.map_cons, List.nodup_cons] at hnd
    obtain ⟨hnotmem, hndrest⟩ := hnd
    cases hae : acceptedHash root e.1 with
    | none =>
      simp only [List.filterMap_cons, hae]
      exact ih hndrest
    | some h =>
      simp only [List.filterMap_cons, hae, List.nodup_cons]
      refine ⟨?_, ih hndrest⟩
      intro hmem
      obtain ⟨e2, he2mem, he2acc⟩ := List.mem_filterMap.mp hmem
      have h1 : e2.1 = get_path_from_hash root h := acceptedHash_some he2acc
      have h2 : e.1 = get_path_from_hash root h := acceptedHash_some hae
      apply hnotmem
      rw [List.mem_map]
      exact ⟨e2, he2mem, by rw [h1, h2]⟩

/-- C8: enumeration completeness and filtering — on a well-formed directory
tree (listings succeed, sibling names distinct), the background scan
terminates successfully (rejected files cause no error), and the sequence
the caller receives is a permutation of the hashes of exactly the accepted
files (extension `bin`, stem parses as a hash, path equal to the canonical
sharded path), each yielded exactly once, with no order guarantee. -/
theorem c8_block_list_enumeration (root : Path)
    (es : List (List Char × FsTree)) (hgood : goodEntries es = true) :
    (block_list_bgrnd root (.dir es)).2 = .ok () ∧
    (block_list root (.dir es)).Perm
      ((treeFiles root (.dir es)).filterMap (fun e => acceptedHash root e.1)) ∧
    (block_list root (.dir es)).Nodup := by
  obtain ⟨hok, hperm⟩ := scanTree_complete root (.dir es) root
    (by simpa [goodTree] using hgood) (by rfl)
  have hperm2 : (block_list root (.dir es)).Perm
      ((treeFiles root (.dir es)).filterMap (fun e => acceptedHash root e.1)) := by
    simpa [block_list] using hperm
  refine ⟨?_, hperm2, ?_⟩
  · rw [block_list_bgrnd_eq]
    exact hok
  · have hpn : ((treeFiles root (.dir es)).map Prod.fst).Nodup :=
      treeFiles_paths_nodup (.dir es) root (by simpa [goodTree] using hgood)
    exact hperm2.nodup_iff.mpr (acceptedList_nodup root _ hpn)

/-- The entries of `exTree`. -/
def exEntries : List (List Char × FsTree) :=
  [(['0', '0'],
     .dir [(['0', '0'], .dir [(exEntryName, .file [1])])]),
   (['s', 't', 'r', 'a', 'y', '.', 'b', 'i', 'n'], .file [3]),
   (['n', 'o', 't', 'e', '.', 't', 'x', 't'], .file [4]),
   (['a', 'a'], .dir [(exEntryName, .file [9])])]

theorem c8_block_list_enumeration_witness :
    (block_list_bgrnd [] (.dir exEntries)).2 = .ok () ∧
    (block_list [] (.dir exEntries)).Perm
      ((treeFiles [] (.dir exEntries)).filterMap
        (fun e => acceptedHash [] e.1)) ∧
    (block_list [] (.dir exEntries)).Nodup :=
  c8_block_list_enumeration [] exEntries (by decide)

mutual

/-- Every failing scan result is an io error wrapped by `?` at the failing
listing call. -/
theorem scanTree_error_io :
    ∀ (root p : Path) (t : FsTree) (e : Error),
      (scanTree root p t).2 = .error e → ∃ k, e = .IoError k
  | root, p, .file _, e, herr => by
    simp only [scanTree, Except.error.injEq] at herr
    exact ⟨.other enotdirCode, herr.symm⟩
  | root, p, .badDir k, e, herr => by
    simp only [scanTree, Except.error.injEq] at herr
    exact ⟨k, herr.symm⟩
  | root, p, .dir es, e, herr => by
    simp only [scanTree] at herr
    exact scanDirs_error_io root p es e herr

theorem scanDirs_error_io :
    ∀ (root p : Path) (es : List (List Char × FsTree)) (e : Error),
      (scanDirs root p es).2 = .error e → ∃ k, e = .IoError k
  | root, p, [], e, herr => by simp [scanDirs] at herr
  | root, p, (name, t) :: rest, e, herr => by
    by_cases hdir : isDirNode t = true
    · rw [scanDirs_cons_dir root p name t rest hdir] at herr
      cases hsd : scanDirs root p rest with
      | mk hs r =>
        rw [hsd] at herr
        cases r with
        | error e2 =>
          simp only [seqScan] at herr
          exact scanDirs_error_io root p rest e (by rw [hsd]; simpa using herr)
        | ok u =>
          simp only [seqScan] at herr
          exact scanTree_error_io root (p ++ [name]) t e herr
    · have hfile : scanDirs root p ((name, t) :: rest) = scanDirs root p rest := by
        simp only [scanDirs, if_neg hdir]
      rw [hfile] at herr
      exact scanDirs_error_io root p rest e herr

end

/-- C9 (amended): every filesystem failure of a single-block operation is
classified into a typed error kind and returned to the caller, with nothing
retried; a failure of the directory listing during enumeration is likewise
classified (as the io error kind) in the background task's result — but
that result is only stored in the task handle, which the stream never
reads: the caller-visible stream consists of exactly the hashes sent before
the failure and then simply ends (see the counterexample). -/
theorem c9_failures_typed (fs : FS) (root : Path) (h : BlockHash)
    (t : FsTree) (off len : Nat) :
    (∀ k : IoErrorKind, k ≠ .notFound →
      fs (get_path_from_hash root h) = .error k →
      get_block fs root h = .error (.IoError k) ∧
      block_size fs root h = .error (.IoError k) ∧
      block_header fs root h = .error (.IoError k) ∧
      block_tx_count fs root h = .error (.IoError k) ∧
      get_bytes_from_block fs root h off len = .error (.IoError k) ∧
      block_exists fs root h = .error (.IoError k)) ∧
    (fs (get_path_from_hash root h) = .error .notFound →
      get_block fs root h = .error .BlockNotFound) ∧
    (∀ e : Error, (block_list_bgrnd root t).2 = .error e →
      ∃ k, e = .IoError k) ∧
    block_list root t = (block_list_bgrnd root t).1 := by
  refine ⟨?_, ?_, ?_, block_list_eq_bgrnd root t⟩
  · intro k hk hfk
    cases k with
    | notFound => exact absurd rfl hk
    | unexpectedEof =>
      simp [get_block, block_size, block_header, block_tx_count,
        get_bytes_from_block, block_exists, hfk]
    | other c =>
      simp [get_block, block_size, block_header, block_tx_count,
        get_bytes_from_block, block_exists, hfk]
  · intro habs
    simp [get_block, habs]
  · intro e herr
    rw [block_list_bgrnd_eq] at herr
    exact scanTree_error_io root root t e herr

/-- A tree whose single subdirectory fails to list. -/
def c9BadTree : FsTree := .dir [(['s', 'u', 'b'], .badDir (.other 5))]

/-- C9 (counterexample): the background task's directory-listing failure is
not returned to the caller of `block_list` — the stream produced over the
failing tree is identical to the stream over an empty, error-free archive,
while the classified error sits only in the never-read task result. -/
theorem c9_counterexample :
    (block_list_bgrnd [] c9BadTree).2 = .error (.IoError (.other 5)) ∧
    block_list [] c9BadTree = block_list [] (.dir []) ∧
    (block_list_bgrnd [] (.dir [])).2 = .ok () := by
  refine ⟨?_, rfl, ?_⟩
  · rw [block_list_bgrnd_eq]
    rfl
  · rw [block_list_bgrnd_eq]
    rfl

theorem c9_failures_typed_witness :
    get_block failFS [] zeroHash = .error (.IoError (.other 7)) ∧
    get_block emptyFS [] zeroHash = .error .BlockNotFound ∧
    (∃ k, Error.IoError (.other 5) = Error.IoError k) ∧
    block_list [] exTree = (block_list_bgrnd [] exTree).1 := by
  refine ⟨?_, ?_, ?_, ?_⟩
  · exact ((c9_failures_typed failFS [] zeroHash exTree 0 1).1 (.other 7)
      (by decide) rfl).1
  · exact (c9_failures_typed emptyFS [] zeroHash exTree 0 1).2.1 rfl
  · exact (c9_failures_typed emptyFS [] zeroHash c9BadTree 0 1).2.2.1
      (.IoError (.other 5)) (by rw [block_list_bgrnd_eq]; rfl)
  · exact (c9_failures_typed emptyFS [] zeroHash exTree 0 1).2.2.2

end SFBA
